import Mathlib

/-!
# Verification of `create_new_line_utf8strs` (client/gui-sdl3/utf8string.c)

The C function scans a null-terminated string and fills a static array
`static char *buf[512]` with heap-allocated copies of the newline-separated
segments (an empty segment closed by a newline becomes the string " "),
followed by a NULL sentinel.  We embed the input as a `List Char` (the bytes
before the terminating null byte; a genuine C string contains no null byte,
captured by the predicate `noNull`), and a buffer slot `char *` as an
`Option String` (`none` is the NULL pointer).

Two models are given and related:
* `create_new_line_utf8strs` — a structural embedding of the loop, recursing
  on the remaining input, recording the sequence of stores into `buf` as a
  list of (index, value) pairs;
* `step` / `loopFuel` — a pointer-level machine mirroring the C local
  variables `start`, `pstr`, `len`, `count` literally, with a fuel bound,
  used to settle the termination claim.
-/

namespace Utf8String

/-- The null character terminating a C string. -/
def nullChar : Char := Char.ofNat 0

/-- A `List Char` models a C string only when no element is the null byte. -/
def noNull (s : List Char) : Prop := ∀ c ∈ s, c ≠ nullChar

instance (s : List Char) : Decidable (noNull s) := by
  unfold noNull; infer_instance

/-- One store into the static array: slot index paired with the stored
pointer value (`none` = NULL, `some str` = allocated string). -/
abbrev Store := Nat × Option String

/-- Structural embedding of the `while (*start != '\0')` loop body of
`create_new_line_utf8strs`, entered with a non-empty remainder.

`remaining` is the input from the current `pstr` position on, `acc` the bytes
scanned since `start` (the C code keeps `start`/`len` with
`start + len = pstr`, so the bytes `memcpy` copies are exactly those scanned
since the last boundary), `count` and `writes` the slot counter and the
stores performed so far.  The first branch is `if (*pstr == '\n')` with its
`if (len)` space substitution; the match on `rest` is the trailing
`if (*pstr == '\0')` block that emits a pending non-empty run and the NULL
sentinel. -/
def scanLoop : List Char → List Char → Nat → List Store → List Store
  | [], _, _, writes => writes
  | c :: rest, acc, count, writes =>
    let t :=
      if c = '\n' then
        let entry : String := if acc.length ≠ 0 then String.mk acc else " "
        (([] : List Char), count + 1, writes ++ [(count, some entry)])
      else
        (acc ++ [c], count, writes)
    match rest with
    | [] =>
      let t2 :=
        if t.1.length ≠ 0 then (t.2.1 + 1, t.2.2 ++ [(t.2.1, some (String.mk t.1))])
        else (t.2.1, t.2.2)
      t2.2 ++ [(t2.1, none)]
    | _ :: _ => scanLoop rest t.1 t.2.1 t.2.2

/-- The stores `create_new_line_utf8strs(pstr)` performs into `buf`, in
order.  An empty input fails the loop guard immediately (`start = pstr`
points at the null byte) and performs no store at all. -/
def create_new_line_utf8strs (s : List Char) : List Store :=
  if s = [] then [] else scanLoop s [] 0 []

/-- The line strings produced before the NULL sentinel, in slot order. -/
def linesOf (s : List Char) : List String :=
  (create_new_line_utf8strs s).filterMap (fun w => w.2)

/-- Number of line entries produced before the NULL sentinel. -/
def numLines (s : List Char) : Nat := (linesOf s).length

/-! ## The static array `buf` across calls -/

/-- The contents of the static array `buf`: the pointer stored in each slot. -/
def Buf := Nat → Option String

/-- Replay a list of stores on a buffer state. -/
def applyWrites (b : Buf) (ws : List Store) : Buf :=
  ws.foldl (fun b w => fun j => if j = w.1 then w.2 else b j) b

/-- Initial state of `static char *buf[512]`: zero-initialized, all NULL. -/
def buf0 : Buf := fun _ => none

/-- The buffer state after one call of `create_new_line_utf8strs` on `s`,
starting from buffer state `b`. -/
def runCall (b : Buf) (s : List Char) : Buf :=
  applyWrites b (create_new_line_utf8strs s)

/-! ## Specification-side view: newline-delimited segments -/

/-- The newline-delimited segments of the input: `k` newlines give `k + 1`
segments (start of input and each newline open one). -/
def splitNl : List Char → List (List Char)
  | [] => [[]]
  | c :: rest =>
    if c = '\n' then [] :: splitNl rest
    else
      match splitNl rest with
      | [] => [[c]]
      | seg :: segs => (c :: seg) :: segs

/-- The string stored for a segment closed by a newline: a copy of the
segment, or " " when the segment is empty. -/
def subst (seg : List Char) : String :=
  if seg = [] then " " else String.mk seg

/-- Drop a trailing empty segment (the run after a final newline, which the
C code never emits). -/
def dropTrailEmpty (segs : List (List Char)) : List (List Char) :=
  if segs.getLast? = some [] then segs.dropLast else segs

/-- The lines the function is expected to produce, segment-wise. -/
def specLines (s : List Char) : List String :=
  (dropTrailEmpty (splitNl s)).map subst

/-- Pair each string with its slot index, starting at `k`. -/
def idxFrom (k : Nat) : List String → List Store
  | [] => []
  | l :: ls => (k, some l) :: idxFrom (k + 1) ls

/-- Prepend already-scanned bytes onto the first segment. -/
def prependSeg (acc : List Char) : List (List Char) → List (List Char)
  | [] => [acc]
  | seg :: segs => (acc ++ seg) :: segs

/-- Join segments back with newline separators. -/
def joinNl : List (List Char) → List Char
  | [] => []
  | [seg] => seg
  | seg :: segs => seg ++ '\n' :: joinNl segs

/-- Undo the empty-segment substitution on one produced line. -/
def unsubst (l : String) : List Char :=
  if l = " " then [] else l.data

/-! ## Pointer-level machine (for the termination claim)

The C locals are kept literally: `start` and `p` (the C `pstr`) are byte
offsets into the input, `len` and `count` the counters, `writes` the stores
performed.  Reading `*q` is `charAt s q`, which yields the terminating null
byte past the end of the input. -/

/-- The byte `*(s + i)` of the null-terminated string `s`. -/
def charAt (s : List Char) (i : Nat) : Char := s.getD i nullChar

/-- The `len` bytes `memcpy` reads from offset `start`. -/
def copyFrom (s : List Char) (start len : Nat) : List Char :=
  (s.drop start).take len

/-- The C locals of `create_new_line_utf8strs` plus the stores done so far. -/
structure CState where
  start : Nat
  p : Nat
  len : Nat
  count : Nat
  writes : List Store
  deriving Repr, DecidableEq

/-- One iteration of the `while` loop body: the `if (*pstr == '\n')`
branch, then `pstr++`, then the `if (*pstr == '\0')` block. -/
def step (s : List Char) (st : CState) : CState :=
  let st1 :=
    if charAt s st.p = '\n' then
      let entry : String :=
        if st.len ≠ 0 then String.mk (copyFrom s st.start st.len) else " "
      { start := st.p + 1, p := st.p, len := 0, count := st.count + 1,
        writes := st.writes ++ [(st.count, some entry)] }
    else
      { st with len := st.len + 1 }
  let st2 := { st1 with p := st1.p + 1 }
  if charAt s st2.p = nullChar then
    let st3 :=
      if st2.len ≠ 0 then
        { st2 with count := st2.count + 1,
                   writes := st2.writes ++
                     [(st2.count, some (String.mk (copyFrom s st2.start st2.len)))] }
      else st2
    { st3 with start := st2.p, writes := st3.writes ++ [(st3.count, none)] }
  else st2

/-- The `while (*start != '\0')` loop, with a fuel bound on the number of
iterations; `none` means the fuel ran out before the guard failed. -/
def loopFuel (s : List Char) : Nat → CState → Option CState
  | 0, st => if charAt s st.start = nullChar then some st else none
  | fuel + 1, st =>
    if charAt s st.start = nullChar then some st
    else loopFuel s fuel (step s st)

/-- Locals at function entry: `start = pstr`, `len = 0`, `count = 0`. -/
def initState : CState := ⟨0, 0, 0, 0, []⟩

/-! ## Basic facts about `splitNl` -/

theorem splitNl_ne_nil (s : List Char) : splitNl s ≠ [] := by
  induction s with
  | nil => simp [splitNl]
  | cons c rest ih =>
    by_cases hc : c = '\n'
    · simp [splitNl, hc]
    · simp only [splitNl, if_neg hc]
      cases h : splitNl rest <;> simp

theorem length_splitNl (s : List Char) :
    (splitNl s).length = s.count '\n' + 1 := by
  induction s with
  | nil => simp [splitNl]
  | cons c rest ih =>
    by_cases hc : c = '\n'
    · simp [splitNl, hc, List.count_cons, ih]
    · simp only [splitNl, if_neg hc]
      cases h : splitNl rest with
      | nil => exact absurd h (splitNl_ne_nil rest)
      | cons seg segs =>
        have := ih
        rw [h] at this
        simp only [List.length_cons] at this ⊢
        simp [List.count_cons, hc, ← this]

theorem mem_splitNl_no_newline {s seg : List Char} (h : seg ∈ splitNl s) :
    '\n' ∉ seg := by
  induction s generalizing seg with
  | nil =>
    simp [splitNl] at h
    subst h; simp
  | cons c rest ih =>
    by_cases hc : c = '\n'
    · simp only [splitNl, if_pos hc, List.mem_cons] at h
      rcases h with h | h
      · subst h; simp
      · exact ih h
    · simp only [splitNl, if_neg hc] at h
      cases heq : splitNl rest with
      | nil => exact absurd heq (splitNl_ne_nil rest)
      | cons seg0 segs =>
        rw [heq, List.mem_cons] at h
        rcases h with h | h
        · subst h
          intro hmem
          rcases List.mem_cons.mp hmem with h' | h'
          · exact hc h'.symm
          · exact ih (heq ▸ List.mem_cons_self seg0 segs) h'
        · exact ih (heq ▸ List.mem_cons_of_mem seg0 h)

theorem joinNl_splitNl (s : List Char) : joinNl (splitNl s) = s := by
  induction s with
  | nil => simp [splitNl, joinNl]
  | cons c rest ih =>
    by_cases hc : c = '\n'
    · simp only [splitNl, if_pos hc]
      cases heq : splitNl rest with
      | nil => exact absurd heq (splitNl_ne_nil rest)
      | cons seg segs =>
        rw [heq] at ih
        simp [joinNl, hc, ← ih]
    · simp only [splitNl, if_neg hc]
      cases heq : splitNl rest with
      | nil => exact absurd heq (splitNl_ne_nil rest)
      | cons seg segs =>
        rw [heq] at ih
        cases segs with
        | nil => simp [joinNl] at ih ⊢; rw [ih]
        | cons seg2 segs2 => simp [joinNl] at ih ⊢; rw [ih]

theorem mem_joinNl_infix {segs : List (List Char)} {seg : List Char}
    (h : seg ∈ segs) : ∃ a b, joinNl segs = a ++ seg ++ b := by
  induction segs with
  | nil => cases h
  | cons hd t ih =>
    rcases List.mem_cons.mp h with h | h
    · subst h
      cases t with
      | nil => exact ⟨[], [], by simp [joinNl]⟩
      | cons t0 ts => exact ⟨[], '\n' :: joinNl (t0 :: ts), by simp [joinNl]⟩
    · obtain ⟨a, b, hab⟩ := ih h
      cases t with
      | nil => cases h
      | cons t0 ts =>
        exact ⟨hd ++ '\n' :: a, b, by simp [joinNl, hab]⟩

theorem mem_splitNl_infix {s seg : List Char} (h : seg ∈ splitNl s) :
    ∃ a b, s = a ++ seg ++ b := by
  obtain ⟨a, b, hab⟩ := mem_joinNl_infix h
  exact ⟨a, b, by rw [← joinNl_splitNl s, hab]⟩

theorem getLast?_cons_ne {α : Type} {a : α} {l : List α} (h : l ≠ []) :
    (a :: l).getLast? = l.getLast? := by
  cases l with
  | nil => exact absurd rfl h
  | cons b t => exact List.getLast?_cons_cons

theorem splitNl_cons_newline (rest : List Char) :
    splitNl ('\n' :: rest) = [] :: splitNl rest := by
  simp [splitNl]

theorem splitNl_cons_other {c : Char} (hc : c ≠ '\n') (rest : List Char) :
    splitNl (c :: rest) = prependSeg [c] (splitNl rest) := by
  simp only [splitNl, if_neg hc]
  rcases heq : splitNl rest with _ | ⟨seg, segs⟩
  · exact absurd heq (splitNl_ne_nil _)
  · simp [prependSeg]

theorem getLast_splitNl_empty {s : List Char} (hs : s ≠ [])
    (h : (splitNl s).getLast? = some []) : s.getLast? = some '\n' := by
  induction s with
  | nil => exact absurd rfl hs
  | cons c rest ih =>
    by_cases hc : c = '\n'
    · subst hc
      rw [splitNl_cons_newline] at h
      cases rest with
      | nil => simp
      | cons c2 rest2 =>
        rcases heq : splitNl (c2 :: rest2) with _ | ⟨seg, segs⟩
        · exact absurd heq (splitNl_ne_nil _)
        · rw [heq, List.getLast?_cons_cons] at h
          rw [List.getLast?_cons_cons]
          exact ih (by simp) (by rw [heq]; exact h)
    · rw [splitNl_cons_other hc] at h
      rcases heq : splitNl rest with _ | ⟨seg, segs⟩
      · exact absurd heq (splitNl_ne_nil _)
      · rw [heq] at h
        cases segs with
        | nil => simp [prependSeg] at h
        | cons seg2 segs2 =>
          have hr : rest ≠ [] := by
            intro h0
            rw [h0] at heq
            simp [splitNl] at heq
          rw [getLast?_cons_ne hr]
          apply ih hr
          rw [heq, List.getLast?_cons_cons]
          simpa only [prependSeg, List.getLast?_cons_cons] using h

theorem splitNl_append_newline (t : List Char) :
    splitNl (t ++ ['\n']) = splitNl t ++ [[]] := by
  induction t with
  | nil => simp [splitNl]
  | cons c rest ih =>
    by_cases hc : c = '\n'
    · subst hc
      rw [List.cons_append, splitNl_cons_newline, splitNl_cons_newline, ih,
        List.cons_append]
    · rw [List.cons_append, splitNl_cons_other hc, splitNl_cons_other hc, ih]
      rcases heq : splitNl rest with _ | ⟨seg, segs⟩
      · exact absurd heq (splitNl_ne_nil _)
      · simp [prependSeg]

theorem splitNl_of_no_newline {s : List Char} (h : '\n' ∉ s) :
    splitNl s = [s] := by
  induction s with
  | nil => simp [splitNl]
  | cons c rest ih =>
    have hc : c ≠ '\n' := fun hcc => h (hcc ▸ List.mem_cons_self c rest)
    have hr : '\n' ∉ rest := fun hm => h (List.mem_cons_of_mem c hm)
    simp [splitNl, hc, ih hr]

/-! ## Facts about `dropTrailEmpty` and `idxFrom` -/

theorem dropTrailEmpty_of_ne {segs : List (List Char)}
    (h : segs.getLast? ≠ some []) : dropTrailEmpty segs = segs := by
  simp [dropTrailEmpty, h]

theorem dropTrailEmpty_concat_empty (segs : List (List Char)) :
    dropTrailEmpty (segs ++ [[]]) = segs := by
  simp [dropTrailEmpty, List.getLast?_concat, List.dropLast_concat]

theorem dropTrailEmpty_cons {a : List Char} {segs : List (List Char)}
    (h : segs ≠ []) :
    dropTrailEmpty (a :: segs) = a :: dropTrailEmpty segs := by
  cases segs with
  | nil => exact absurd rfl h
  | cons b rest =>
    simp only [dropTrailEmpty, List.getLast?_cons_cons]
    split
    · rw [List.dropLast_cons₂]
    · rfl

theorem mem_dropTrailEmpty {seg : List Char} {segs : List (List Char)}
    (h : seg ∈ dropTrailEmpty segs) : seg ∈ segs := by
  unfold dropTrailEmpty at h
  split at h
  · exact (List.dropLast_sublist segs).mem h
  · exact h

theorem filterMap_idxFrom (ls : List String) :
    ∀ k, (idxFrom k ls).filterMap (fun w => w.2) = ls := by
  induction ls with
  | nil => intro k; simp [idxFrom]
  | cons l ls ih => intro k; simp [idxFrom, ih]

theorem mem_idxFrom {w : Store} {ls : List String} :
    ∀ {k}, w ∈ idxFrom k ls → k ≤ w.1 ∧ w.1 < k + ls.length ∧ w.2 ≠ none := by
  induction ls with
  | nil => intro k h; cases h
  | cons l ls ih =>
    intro k h
    rcases List.mem_cons.mp h with h | h
    · subst h; simp
    · obtain ⟨h1, h2, h3⟩ := ih h
      refine ⟨by omega, by simp only [List.length_cons]; omega, h3⟩

theorem prependSeg_of_ne_nil {segs : List (List Char)} (h : segs ≠ []) :
    prependSeg [] segs = segs := by
  cases segs with
  | nil => exact absurd rfl h
  | cons seg rest => simp [prependSeg]

theorem prependSeg_prependSeg (a b : List Char) (segs : List (List Char)) :
    prependSeg a (prependSeg b segs) = prependSeg (a ++ b) segs := by
  cases segs with
  | nil => simp [prependSeg]
  | cons seg rest => simp [prependSeg]

/-! ## The scan loop computes the segment-level specification -/

/-- The lines still to be produced when the loop stands at `rest` with
pending run `acc`. -/
def pendingLines (acc rest : List Char) : List String :=
  (dropTrailEmpty (prependSeg acc (splitNl rest))).map subst

theorem pendingLines_nil_acc (s : List Char) :
    pendingLines [] s = specLines s := by
  unfold pendingLines specLines
  rw [prependSeg_of_ne_nil (splitNl_ne_nil s)]

theorem scanLoop_singleton_newline (acc : List Char) (count : Nat)
    (writes : List Store) :
    scanLoop ['\n'] acc count writes =
      writes ++ [(count, some (subst acc)), (count + 1, none)] := by
  by_cases ha : acc = []
  · subst ha; simp [scanLoop, subst]
  · have : acc.length ≠ 0 := by simpa using ha
    simp [scanLoop, subst, ha, this]

theorem scanLoop_singleton_other {c : Char} (hc : c ≠ '\n') (acc : List Char)
    (count : Nat) (writes : List Store) :
    scanLoop [c] acc count writes =
      writes ++ [(count, some (String.mk (acc ++ [c]))), (count + 1, none)] := by
  simp [scanLoop, hc]

theorem scanLoop_cons_newline {rest : List Char} (h : rest ≠ [])
    (acc : List Char) (count : Nat) (writes : List Store) :
    scanLoop ('\n' :: rest) acc count writes =
      scanLoop rest [] (count + 1) (writes ++ [(count, some (subst acc))]) := by
  cases rest with
  | nil => exact absurd rfl h
  | cons r rs =>
    by_cases ha : acc = []
    · subst ha; simp [scanLoop, subst]
    · have : acc.length ≠ 0 := by simpa using ha
      simp [scanLoop, subst, ha, this]

theorem scanLoop_cons_other {c : Char} {rest : List Char} (hc : c ≠ '\n')
    (h : rest ≠ []) (acc : List Char) (count : Nat) (writes : List Store) :
    scanLoop (c :: rest) acc count writes =
      scanLoop rest (acc ++ [c]) count writes := by
  cases rest with
  | nil => exact absurd rfl h
  | cons r rs => simp [scanLoop, hc]

theorem scanLoop_spec :
    ∀ rest : List Char, rest ≠ [] → ∀ (acc : List Char) (count : Nat)
      (writes : List Store),
    scanLoop rest acc count writes =
      writes ++ idxFrom count (pendingLines acc rest)
        ++ [(count + (pendingLines acc rest).length, none)] := by
  intro rest
  induction rest with
  | nil => intro h; exact absurd rfl h
  | cons c rest ih =>
    intro _ acc count writes
    by_cases hc : c = '\n'
    · subst hc
      cases rest with
      | nil =>
        rw [scanLoop_singleton_newline]
        have hseg : prependSeg acc (splitNl ['\n']) = [acc, []] := by
          simp [splitNl, prependSeg]
        have : pendingLines acc ['\n'] = [subst acc] := by
          unfold pendingLines
          rw [hseg]
          simp [dropTrailEmpty]
        simp [this, idxFrom]
      | cons r rs =>
        rw [scanLoop_cons_newline (by simp), ih (by simp)]
        have hsne := splitNl_ne_nil (r :: rs)
        have hpend : pendingLines acc ('\n' :: r :: rs) =
            subst acc :: pendingLines [] (r :: rs) := by
          unfold pendingLines
          rw [splitNl_cons_newline]
          have h1 : prependSeg acc ([] :: splitNl (r :: rs)) =
              acc :: splitNl (r :: rs) := by simp [prependSeg]
          rw [h1, dropTrailEmpty_cons hsne, List.map_cons,
            prependSeg_of_ne_nil hsne]
        rw [hpend]
        simp only [idxFrom, List.length_cons, List.append_assoc,
          List.cons_append, List.nil_append]
        have : count + 1 + (pendingLines [] (r :: rs)).length =
            count + ((pendingLines [] (r :: rs)).length + 1) := by omega
        rw [this]
    · cases rest with
      | nil =>
        rw [scanLoop_singleton_other hc]
        have hseg : prependSeg acc (splitNl [c]) = [acc ++ [c]] := by
          rw [splitNl_cons_other hc]
          simp [splitNl, prependSeg]
        have : pendingLines acc [c] = [String.mk (acc ++ [c])] := by
          unfold pendingLines
          rw [hseg]
          simp [dropTrailEmpty, subst]
        simp [this, idxFrom]
      | cons r rs =>
        rw [scanLoop_cons_other hc (by simp), ih (by simp)]
        have hpend : pendingLines acc (c :: r :: rs) =
            pendingLines (acc ++ [c]) (r :: rs) := by
          unfold pendingLines
          rw [splitNl_cons_other hc, prependSeg_prependSeg]
        rw [hpend]

theorem create_spec {s : List Char} (h : s ≠ []) :
    create_new_line_utf8strs s =
      idxFrom 0 (specLines s) ++ [((specLines s).length, none)] := by
  unfold create_new_line_utf8strs
  rw [if_neg h, scanLoop_spec s h, pendingLines_nil_acc]
  simp

theorem linesOf_eq_specLines (s : List Char) : linesOf s = specLines s := by
  by_cases h : s = []
  · subst h
    rfl
  · unfold linesOf
    rw [create_spec h, List.filterMap_append, filterMap_idxFrom]
    simp

theorem numLines_eq (s : List Char) : numLines s = (specLines s).length := by
  unfold numLines
  rw [linesOf_eq_specLines]

/-! ## The pointer machine refines the structural loop -/

theorem charAt_of_lt {s : List Char} {i : Nat} (h : i < s.length) :
    charAt s i = s[i] :=
  List.getD_eq_getElem s nullChar h

theorem charAt_ne_null {s : List Char} {i : Nat} (hnn : noNull s)
    (h : i < s.length) : charAt s i ≠ nullChar := by
  rw [charAt_of_lt h]
  exact hnn _ (s.getElem_mem h)

theorem charAt_of_ge {s : List Char} {i : Nat} (h : s.length ≤ i) :
    charAt s i = nullChar :=
  List.getD_eq_default s nullChar h

theorem copyFrom_length {s : List Char} {start len : Nat}
    (h : start + len ≤ s.length) : (copyFrom s start len).length = len := by
  unfold copyFrom
  rw [List.length_take, List.length_drop]
  omega

theorem copyFrom_zero (s : List Char) (start : Nat) :
    copyFrom s start 0 = [] := rfl

theorem copyFrom_succ {s : List Char} {start len : Nat}
    (h : start + len < s.length) :
    copyFrom s start (len + 1) = copyFrom s start len ++ [s[start + len]] := by
  unfold copyFrom
  rw [List.take_succ, List.getElem?_drop]
  have : s[start + len]? = some s[start + len] := List.getElem?_eq_getElem h
  rw [this]
  rfl

theorem loopFuel_of_null {s : List Char} {st : CState}
    (h : charAt s st.start = nullChar) :
    ∀ fuel, loopFuel s fuel st = some st := by
  intro fuel
  cases fuel <;> simp [loopFuel, h]

theorem loopFuel_succ {s : List Char} {st : CState} {fuel : Nat}
    (h : charAt s st.start ≠ nullChar) :
    loopFuel s (fuel + 1) st = loopFuel s fuel (step s st) := by
  simp [loopFuel, h]

theorem step_nl_end {s : List Char} {p : Nat} (start len count : Nat)
    (writes : List Store) (hc : charAt s p = '\n')
    (hend : charAt s (p + 1) = nullChar) :
    step s ⟨start, p, len, count, writes⟩ =
      ⟨p + 1, p + 1, 0, count + 1,
        writes ++ [(count,
          some (if len ≠ 0 then String.mk (copyFrom s start len) else " "))]
          ++ [(count + 1, none)]⟩ := by
  simp [step, hc, hend]

theorem step_nl_cont {s : List Char} {p : Nat} (start len count : Nat)
    (writes : List Store) (hc : charAt s p = '\n')
    (hend : charAt s (p + 1) ≠ nullChar) :
    step s ⟨start, p, len, count, writes⟩ =
      ⟨p + 1, p + 1, 0, count + 1,
        writes ++ [(count,
          some (if len ≠ 0 then String.mk (copyFrom s start len) else " "))]⟩ := by
  simp [step, hc, hend]

theorem step_other_end {s : List Char} {p : Nat} (start len count : Nat)
    (writes : List Store) (hc : charAt s p ≠ '\n')
    (hend : charAt s (p + 1) = nullChar) :
    step s ⟨start, p, len, count, writes⟩ =
      ⟨p + 1, p + 1, len + 1, count + 1,
        writes ++ [(count, some (String.mk (copyFrom s start (len + 1))))]
          ++ [(count + 1, none)]⟩ := by
  simp [step, hc, hend]

theorem step_other_cont {s : List Char} {p : Nat} (start len count : Nat)
    (writes : List Store) (hc : charAt s p ≠ '\n')
    (hend : charAt s (p + 1) ≠ nullChar) :
    step s ⟨start, p, len, count, writes⟩ =
      ⟨start, p + 1, len + 1, count, writes⟩ := by
  simp [step, hc, hend]

theorem subst_copyFrom {s : List Char} {start len : Nat}
    (h : start + len ≤ s.length) :
    (if len ≠ 0 then String.mk (copyFrom s start len) else " ")
      = subst (copyFrom s start len) := by
  unfold subst
  by_cases hl : len = 0
  · subst hl
    simp [copyFrom_zero]
  · have : copyFrom s start len ≠ [] := by
      intro h0
      have := copyFrom_length h
      rw [h0] at this
      exact hl this.symm
    simp [hl, this]

theorem drop_ne_nil_of_lt {s : List Char} {i : Nat} (h : i < s.length) :
    s.drop i ≠ [] := by
  intro h0
  have := s.length_drop i
  rw [h0] at this
  simp at this
  omega

theorem loopFuel_scanLoop {s : List Char} (hnn : noNull s) :
    ∀ (fuel start len count : Nat) (writes : List Store),
      start + len < s.length → s.length - (start + len) ≤ fuel →
      (loopFuel s fuel ⟨start, start + len, len, count, writes⟩).map
          CState.writes
        = some (scanLoop (s.drop (start + len)) (copyFrom s start len)
            count writes) := by
  intro fuel
  induction fuel with
  | zero => intro start len count writes hlt hrem; omega
  | succ fuel ih =>
    intro start len count writes hlt hrem
    have hstart : charAt s start ≠ nullChar :=
      charAt_ne_null hnn (by omega)
    rw [loopFuel_succ hstart]
    have hdrop : s.drop (start + len)
        = s[start + len] :: s.drop (start + len + 1) :=
      List.drop_eq_getElem_cons hlt
    have hp : charAt s (start + len) = s[start + len] := charAt_of_lt hlt
    by_cases hc : s[start + len] = '\n'
    · by_cases hend : start + len + 1 = s.length
      · rw [step_nl_end start len count writes (by rw [hp]; exact hc)
          (charAt_of_ge (by omega))]
        rw [loopFuel_of_null
          (charAt_of_ge (show s.length ≤ start + len + 1 by omega))]
        have hdrop2 : s.drop (start + len + 1) = [] :=
          List.drop_eq_nil_of_le (by omega)
        rw [hdrop, hdrop2, hc, scanLoop_singleton_newline,
          subst_copyFrom (by omega)]
        simp
      · have hend' : charAt s (start + len + 1) ≠ nullChar :=
          charAt_ne_null hnn (by omega)
        rw [step_nl_cont start len count writes (by rw [hp]; exact hc) hend']
        have hstep := ih (start + len + 1) 0 (count + 1)
          (writes ++ [(count,
            some (if len ≠ 0 then String.mk (copyFrom s start len) else " "))])
          (by omega) (by omega)
        rw [Nat.add_zero] at hstep
        rw [hstep, hdrop, hc,
          scanLoop_cons_newline (drop_ne_nil_of_lt (by omega)),
          subst_copyFrom (show start + len ≤ s.length by omega),
          copyFrom_zero]
    · by_cases hend : start + len + 1 = s.length
      · rw [step_other_end start len count writes (by rw [hp]; exact hc)
          (charAt_of_ge (by omega))]
        rw [loopFuel_of_null
          (charAt_of_ge (show s.length ≤ start + len + 1 by omega))]
        have hdrop2 : s.drop (start + len + 1) = [] :=
          List.drop_eq_nil_of_le (by omega)
        rw [hdrop, hdrop2, scanLoop_singleton_other hc,
          ← copyFrom_succ hlt]
        simp
      · have hend' : charAt s (start + len + 1) ≠ nullChar :=
          charAt_ne_null hnn (by omega)
        rw [step_other_cont start len count writes (by rw [hp]; exact hc) hend']
        have harr : start + (len + 1) = start + len + 1 := by omega
        have hstep := ih start (len + 1) count writes (by omega) (by omega)
        rw [harr] at hstep
        rw [hstep, hdrop,
          scanLoop_cons_other hc (drop_ne_nil_of_lt (by omega)),
          copyFrom_succ hlt]

theorem dropTrail_splitNl_of_not_nl {s : List Char} (hs : s ≠ [])
    (h : s.getLast? ≠ some '\n') :
    dropTrailEmpty (splitNl s) = splitNl s :=
  dropTrailEmpty_of_ne (fun hl => h (getLast_splitNl_empty hs hl))

theorem unsubst_subst {seg : List Char} (h : seg ≠ [' ']) :
    unsubst (subst seg) = seg := by
  unfold subst unsubst
  by_cases he : seg = []
  · subst he; simp
  · rw [if_neg he]
    have hne : String.mk seg ≠ " " := by
      intro hmk
      exact h (congrArg String.data hmk)
    rw [if_neg hne]

/-! ## Claims -/

/-- C1 (amended: non-empty inputs).  For every null-free, non-empty input
with `k` newline characters that does not end in a newline, the function
produces exactly `k + 1` line entries before the NULL sentinel. -/
theorem numLines_eq_newline_count_succ (s : List Char) (_h0 : noNull s)
    (h1 : s ≠ []) (h2 : s.getLast? ≠ some '\n') :
    numLines s = s.count '\n' + 1 := by
  rw [numLines_eq]
  unfold specLines
  rw [dropTrail_splitNl_of_not_nl h1 h2, List.length_map, length_splitNl]

/-- C1 fails at the empty input, which the claim explicitly includes: it has
zero newlines and does not end in a newline, yet the loop guard fails
immediately and the function produces 0 entries, not 0 + 1. -/
theorem numLines_nil_ne_succ :
    noNull [] ∧ List.count '\n' ([] : List Char) = 0 ∧
      ([] : List Char).getLast? ≠ some '\n' ∧
      numLines [] = 0 ∧ numLines [] ≠ 0 + 1 :=
  ⟨by decide, rfl, by decide, rfl, by decide⟩

theorem numLines_eq_newline_count_succ_witness :
    noNull ['a', '\n', 'b'] ∧ ['a', '\n', 'b'] ≠ [] ∧
      (['a', '\n', 'b'].getLast? ≠ some '\n') ∧
      numLines ['a', '\n', 'b'] = ['a', '\n', 'b'].count '\n' + 1 :=
  ⟨by decide, by decide, by decide,
    numLines_eq_newline_count_succ ['a', '\n', 'b'] (by decide) (by decide)
      (by decide)⟩

/-- C2: the code contradicts the claim.  A call on the empty input performs
no store at all (the loop guard `*start != '\0'` fails immediately), so
after a prior call on "a" filled slot 0, slot 0 still holds the stale entry
"a" rather than the NULL sentinel the claim requires. -/
theorem empty_input_leaves_stale_slot :
    create_new_line_utf8strs [] = [] ∧
      runCall (runCall buf0 ['a']) [] 0 = some "a" ∧
      runCall (runCall buf0 ['a']) [] 0 ≠ none :=
  ⟨rfl, rfl, by decide⟩

/-- C3 (amended): for a null-free, non-empty input `t` not ending in a
newline, (a) the output ends with the final segment of `t` (the non-empty
pending run emitted on reaching the terminating null byte), and (b)
appending a final newline to `t` does not change the number of lines.  (The
original claim asserted (b) whenever the final segment is empty, i.e. for
every input ending in a newline; it fails when the segment immediately
preceding that final newline is itself empty, see the counterexample.) -/
theorem final_run_emitted (t : List Char) (_h0 : noNull t) (h1 : t ≠ [])
    (h2 : t.getLast? ≠ some '\n') :
    (∃ seg, (splitNl t).getLast? = some seg ∧ seg ≠ [] ∧
        (linesOf t).getLast? = some (String.mk seg)) ∧
      numLines (t ++ ['\n']) = numLines t := by
  have hdt := dropTrail_splitNl_of_not_nl h1 h2
  constructor
  · rcases hlast : (splitNl t).getLast? with _ | seg
    · rw [List.getLast?_eq_none_iff] at hlast
      exact absurd hlast (splitNl_ne_nil t)
    · have hne : seg ≠ [] := by
        intro h0'
        subst h0'
        exact h2 (getLast_splitNl_empty h1 hlast)
      refine ⟨seg, rfl, hne, ?_⟩
      rw [linesOf_eq_specLines]
      unfold specLines
      rw [hdt, List.getLast?_map, hlast]
      simp [subst, hne]
  · rw [numLines_eq, numLines_eq]
    unfold specLines
    rw [splitNl_append_newline, dropTrailEmpty_concat_empty, hdt]

/-- C3 as stated fails at the input "\n": it ends in a newline and the
segment before that newline is empty; it produces one line while the same
input without the final newline (the empty input) produces zero lines. -/
theorem newline_only_input_adds_line :
    ['\n'] = ([] : List Char) ++ ['\n'] ∧ linesOf ['\n'] = [" "] ∧
      numLines ['\n'] = 1 ∧ numLines ([] : List Char) = 0 :=
  ⟨rfl, by decide, rfl, rfl⟩

theorem final_run_emitted_witness :
    noNull ['a'] ∧ ['a'] ≠ [] ∧ (['a'].getLast? ≠ some '\n') ∧
      ((∃ seg, (splitNl ['a']).getLast? = some seg ∧ seg ≠ [] ∧
          (linesOf ['a']).getLast? = some (String.mk seg)) ∧
        numLines (['a'] ++ ['\n']) = numLines ['a']) :=
  ⟨by decide, by decide, by decide,
    final_run_emitted ['a'] (by decide) (by decide) (by decide)⟩

/-- C4: every empty segment closed by a newline (delimited by two
consecutive newlines, or by the start of the input and a newline — i.e.
every empty segment other than a trailing one) is emitted as the
single-space string " " of length exactly 1, never as a zero-length string;
in particular "a\n\nb" yields the lines ["a", " ", "b"] in order. -/
theorem empty_segment_becomes_space (s : List Char) (i : Nat)
    (_h0 : noNull s) (h1 : (splitNl s)[i]? = some [])
    (h2 : i + 1 < (splitNl s).length) :
    (linesOf s)[i]? = some " " ∧ (" ").length = 1 ∧
      linesOf ['a', '\n', '\n', 'b'] = ["a", " ", "b"] := by
  refine ⟨?_, rfl, by decide⟩
  rw [linesOf_eq_specLines]
  unfold specLines
  rw [List.getElem?_map]
  have hidx : (dropTrailEmpty (splitNl s))[i]? = some [] := by
    unfold dropTrailEmpty
    split
    · rw [List.getElem?_dropLast, if_pos (by omega)]
      exact h1
    · exact h1
  rw [hidx]
  simp [subst]

theorem empty_segment_becomes_space_witness :
    noNull ['a', '\n', '\n', 'b'] ∧
      (splitNl ['a', '\n', '\n', 'b'])[1]? = some [] ∧
      1 + 1 < (splitNl ['a', '\n', '\n', 'b']).length ∧
      ((linesOf ['a', '\n', '\n', 'b'])[1]? = some " " ∧ (" ").length = 1 ∧
        linesOf ['a', '\n', '\n', 'b'] = ["a", " ", "b"]) :=
  ⟨by decide, by decide, by decide,
    empty_segment_becomes_space ['a', '\n', '\n', 'b'] 1 (by decide)
      (by decide) (by decide)⟩

/-- C5 (amended): for every null-free input without a trailing newline in
which no newline-delimited segment consists of exactly one space, joining
the produced lines with newline separators, after mapping each single-space
line back to the empty segment, reconstructs the input.  (The original
claim, without the no-single-space-segment condition, fails on the input
" ", see the counterexample: a genuine one-space segment is also mapped
back to empty.) -/
theorem round_trip (s : List Char) (h0 : noNull s)
    (h1 : s.getLast? ≠ some '\n') (h2 : ∀ seg ∈ splitNl s, seg ≠ [' ']) :
    joinNl ((linesOf s).map unsubst) = s := by
  by_cases hs : s = []
  · subst hs; rfl
  · rw [linesOf_eq_specLines]
    unfold specLines
    rw [dropTrail_splitNl_of_not_nl hs h1, List.map_map]
    have hmap : ∀ seg ∈ splitNl s, (unsubst ∘ subst) seg = id seg :=
      fun seg hm => unsubst_subst (h2 seg hm)
    rw [List.map_congr_left hmap, List.map_id, joinNl_splitNl]

/-- C5 as stated fails at the input " ": it is null-free with no trailing
newline, but its single line " " is mapped back to the empty segment, so
the round trip returns the empty input instead of " ". -/
theorem round_trip_fails_on_space :
    noNull [' '] ∧ ([' '].getLast? ≠ some '\n') ∧
      linesOf [' '] = [" "] ∧
      joinNl ((linesOf [' ']).map unsubst) = [] ∧
      joinNl ((linesOf [' ']).map unsubst) ≠ [' '] :=
  ⟨by decide, by decide, by decide, by decide, by decide⟩

theorem round_trip_witness :
    noNull ['a', '\n', '\n', 'b'] ∧
      (['a', '\n', '\n', 'b'].getLast? ≠ some '\n') ∧
      (∀ seg ∈ splitNl ['a', '\n', '\n', 'b'], seg ≠ [' ']) ∧
      joinNl ((linesOf ['a', '\n', '\n', 'b']).map unsubst)
        = ['a', '\n', '\n', 'b'] :=
  ⟨by decide, by decide, by decide,
    round_trip ['a', '\n', '\n', 'b'] (by decide) (by decide) (by decide)⟩

/-- C6: for every non-empty null-free input, the store sequence is exactly
the line entries at slots 0, ..., n-1 followed by a single NULL sentinel
written at slot n, the index immediately after the last real line; no line
entry itself is NULL. -/
theorem sentinel_after_lines (s : List Char) (_h0 : noNull s) (h1 : s ≠ []) :
    create_new_line_utf8strs s
        = idxFrom 0 (linesOf s) ++ [(numLines s, none)] ∧
      ∀ w ∈ idxFrom 0 (linesOf s), w.2 ≠ none := by
  constructor
  · rw [create_spec h1, linesOf_eq_specLines, numLines_eq]
  · intro w hw
    exact (mem_idxFrom hw).2.2

theorem sentinel_after_lines_witness :
    noNull ['a', '\n', 'b'] ∧ ['a', '\n', 'b'] ≠ [] ∧
      (create_new_line_utf8strs ['a', '\n', 'b']
          = idxFrom 0 (linesOf ['a', '\n', 'b'])
            ++ [(numLines ['a', '\n', 'b'], none)] ∧
        ∀ w ∈ idxFrom 0 (linesOf ['a', '\n', 'b']), w.2 ≠ none) :=
  ⟨by decide, by decide,
    sentinel_after_lines ['a', '\n', 'b'] (by decide) (by decide)⟩

/-- C7: under the precondition that the null-free input yields at most 511
lines, every store the function performs into the static array is in bounds
(index < 512), and the total of produced entries including the NULL
sentinel does not exceed the 512-slot capacity. -/
theorem writes_in_bounds (s : List Char) (_h0 : noNull s)
    (h1 : numLines s ≤ 511) :
    (∀ w ∈ create_new_line_utf8strs s, w.1 < 512) ∧
      numLines s + 1 ≤ 512 := by
  refine ⟨?_, by omega⟩
  intro w hw
  by_cases hs : s = []
  · rw [hs] at hw
    rw [show create_new_line_utf8strs [] = [] from rfl] at hw
    cases hw
  · rw [create_spec hs] at hw
    have hlen : (specLines s).length = numLines s := (numLines_eq s).symm
    rcases List.mem_append.mp hw with hw | hw
    · have := (mem_idxFrom hw).2.1
      omega
    · rw [List.mem_singleton] at hw
      subst hw
      show (specLines s).length < 512
      omega

theorem writes_in_bounds_witness :
    noNull ['a', '\n', 'b'] ∧ numLines ['a', '\n', 'b'] ≤ 511 ∧
      ((∀ w ∈ create_new_line_utf8strs ['a', '\n', 'b'], w.1 < 512) ∧
        numLines ['a', '\n', 'b'] + 1 ≤ 512) :=
  ⟨by decide, by decide,
    writes_in_bounds ['a', '\n', 'b'] (by decide) (by decide)⟩

/-- C8: a non-empty null-free input containing no newline character yields
exactly one line, whose contents are the whole input. -/
theorem no_newline_single_line (s : List Char) (_h0 : noNull s) (h1 : s ≠ [])
    (h2 : '\n' ∉ s) : linesOf s = [String.mk s] := by
  rw [linesOf_eq_specLines]
  unfold specLines
  rw [splitNl_of_no_newline h2, dropTrailEmpty_of_ne (by simp [h1])]
  simp [subst, h1]

theorem no_newline_single_line_witness :
    noNull ['h', 'i'] ∧ ['h', 'i'] ≠ [] ∧ '\n' ∉ ['h', 'i'] ∧
      linesOf ['h', 'i'] = [String.mk ['h', 'i']] :=
  ⟨by decide, by decide, by decide,
    no_newline_single_line ['h', 'i'] (by decide) (by decide) (by decide)⟩

/-- C9: every line entry produced before the sentinel is either the
single-space substitute or a copy of a contiguous run of bytes of the
input; no produced line contains a newline byte and every produced line has
length at least 1. -/
theorem lines_shape (s : List Char) (_h0 : noNull s) :
    ∀ l ∈ linesOf s, (l = " " ∨ ∃ a b, s = a ++ l.data ++ b) ∧
      (∀ c ∈ l.data, c ≠ '\n') ∧ 1 ≤ l.length := by
  intro l hl
  rw [linesOf_eq_specLines] at hl
  unfold specLines at hl
  rcases List.mem_map.mp hl with ⟨seg, hseg, rfl⟩
  have hsegmem : seg ∈ splitNl s := mem_dropTrailEmpty hseg
  by_cases he : seg = []
  · subst he
    refine ⟨Or.inl (by simp [subst]), ?_, by decide⟩
    intro c hc
    simp [subst] at hc
    subst hc
    decide
  · have hdata : (subst seg).data = seg := by simp [subst, he]
    refine ⟨Or.inr ?_, ?_, ?_⟩
    · rw [hdata]
      exact mem_splitNl_infix hsegmem
    · rw [hdata]
      intro c hc hcn
      subst hcn
      exact mem_splitNl_no_newline hsegmem hc
    · have hpos : 0 < seg.length := List.length_pos.mpr he
      simp [String.length, hdata]
      omega

theorem lines_shape_witness :
    noNull ['a', '\n', '\n', 'b'] ∧
      ∀ l ∈ linesOf ['a', '\n', '\n', 'b'],
        (l = " " ∨ ∃ a b, ['a', '\n', '\n', 'b'] = a ++ l.data ++ b) ∧
          (∀ c ∈ l.data, c ≠ '\n') ∧ 1 ≤ l.length :=
  ⟨by decide, lines_shape ['a', '\n', '\n', 'b'] (by decide)⟩

/-- C10: the scan loop terminates on every null-terminated input: although
the guard tests `*start`, the trailing block sets `start` to `pstr` when
`*pstr` becomes the null byte and `pstr` strictly advances each iteration,
so `s.length` iterations of fuel always suffice, and the pointer machine
produces exactly the stores of the structural embedding. -/
theorem loop_terminates (s : List Char) (h0 : noNull s) :
    (loopFuel s s.length initState).map CState.writes
      = some (create_new_line_utf8strs s) := by
  by_cases hs : s = []
  · subst hs; rfl
  · have hlen : 0 < s.length := List.length_pos.mpr hs
    have h2 := loopFuel_scanLoop h0 s.length 0 0 0 [] (by omega) (by omega)
    rw [List.drop_zero] at h2
    unfold create_new_line_utf8strs
    rw [if_neg hs]
    exact h2

theorem loop_terminates_witness :
    noNull ['a', '\n', 'b'] ∧
      (loopFuel ['a', '\n', 'b'] (['a', '\n', 'b'].length) initState).map
          CState.writes
        = some (create_new_line_utf8strs ['a', '\n', 'b']) :=
  ⟨by decide, loop_terminates ['a', '\n', 'b'] (by decide)⟩

end Utf8String
